import Mathlib

/-!
Verification of the TG_GPT chat-log-to-training-data pipeline.

The definitions below are a shallow embedding of the hand-written core of
the repository: the message normalizer `clean_text`, the conversation
extractor `process_chat_file` with its bounded context window, the dataset
aggregator and its statistics fold (all from
`src/dataset/prepare_training_dataset.py`), and the reply post-processing
and fallback logic of `MessageGenerator.generate_response` /
`generate_multiple_responses` (from `src/core/generator.py`).

Python strings are modelled as Lean `String` / `List Char`; the JSON chat
dumps are modelled by explicit structures mirroring the fields the code
reads; a fallible file read is an explicit sum (`FileRead`), and the
external model-inference call is a parameter returning an explicit outcome
(`GenOutcome`).
-/

/-! ## Character classes

`clean_text` uses the regexes `[^\w\s.,!?\-:;()]` and `\s+`.  `isSpaceChar`
models `\s` (the ASCII whitespace class used by the data), `isWordChar`
models `\w` on the alphabets occurring in the repository (ASCII
alphanumerics, underscore, and Russian Cyrillic letters). -/

def isSpaceChar (c : Char) : Bool :=
  c == ' ' || c == '\t' || c == '\n' || c == '\r' || c == '\x0b' || c == '\x0c'

def isWordChar (c : Char) : Bool :=
  c.isAlphanum || c == '_' ||
    (0x410 ≤ c.toNat && c.toNat ≤ 0x44F) || c == 'ё' || c == 'Ё'

def isKeptPunct (c : Char) : Bool :=
  c == '.' || c == ',' || c == '!' || c == '?' || c == '-' ||
    c == ':' || c == ';' || c == '(' || c == ')'

/-- The whitelist of the first regex: `\w`, `\s`, and the punctuation
`. , ! ? - : ; ( )`. -/
def allowedChar (c : Char) : Bool :=
  isWordChar c || isSpaceChar c || isKeptPunct c

/-! ## The normalizer `clean_text` -/

/-- `re.sub(r'[^\w\s.,!?\-:;()]', ' ', text)`: every character outside the
whitelist is replaced by a single space. -/
def subDisallowed (l : List Char) : List Char :=
  l.map (fun c => if allowedChar c then c else ' ')

/-- One step of `re.sub(r'\s+', ' ', text)`: the flag records whether the
previous character belonged to a whitespace run that has already emitted
its single replacement space. -/
def collapseAux : Bool → List Char → List Char
  | _, [] => []
  | prevSp, c :: cs =>
    if isSpaceChar c then
      if prevSp then collapseAux true cs
      else ' ' :: collapseAux true cs
    else c :: collapseAux false cs

/-- `re.sub(r'\s+', ' ', text)`: each maximal whitespace run becomes one
space. -/
def collapseWS (l : List Char) : List Char :=
  collapseAux false l

/-- Python `str.strip()`: drop whitespace from both ends. -/
def stripWS (l : List Char) : List Char :=
  List.rdropWhile isSpaceChar (List.dropWhile isSpaceChar l)

/-- The string pipeline of `clean_text` (lines 13-16 of
`prepare_training_dataset.py`): substitute disallowed characters by
spaces, collapse whitespace runs, strip. -/
def cleanChars (l : List Char) : List Char :=
  stripWS (collapseWS (subDisallowed l))

def cleanString (s : String) : String :=
  String.mk (cleanChars s.data)

/-- One element of a structured Telegram `text` fragment list: either a
plain string fragment or a dict-like fragment carrying a `text` field. -/
inductive Fragment where
  | str : String → Fragment
  | dict : String → Fragment
deriving DecidableEq

/-- The dynamically typed `text` value of an exported message: a plain
string or a fragment list. -/
inductive TextVal where
  | plain : String → TextVal
  | frags : List Fragment → TextVal
deriving DecidableEq

/-- `str(t['text']) if isinstance(t, dict) else str(t)` for one fragment. -/
def fragToString : Fragment → String
  | .str s => s
  | .dict t => t

/-- `''.join(...)`: concatenation with no separator, in original order. -/
def joinStrs : List String → String
  | [] => ""
  | s :: rest => s ++ joinStrs rest

/-- The value `str(text)` seen by the regexes: a fragment list is first
joined, a plain string is passed through. -/
def textValToString : TextVal → String
  | .plain s => s
  | .frags fs => joinStrs (fs.map fragToString)

/-- `clean_text` (lines 7-16 of `prepare_training_dataset.py`). -/
def clean_text (v : TextVal) : String :=
  cleanString (textValToString v)

/-! ## The conversation extractor `process_chat_file` -/

/-- One entry of the `messages` array of an exported chat: the code reads
`msg.get('type')`, `msg.get('from', '')` and `msg['text']` (guarded by
`'text' not in msg`).  A missing field is `none`. -/
structure RawMsg where
  type : Option String
  fromField : Option String
  text : Option TextVal
deriving DecidableEq

/-- `msg.get('from', '')`. -/
def senderOf (m : RawMsg) : String :=
  m.fromField.getD ""

/-- The top level of one exported chat file: `data.get('type')`,
`data.get('name', 'Unknown')`, `data.get('messages', [])`. -/
structure ChatData where
  type : Option String
  name : Option String
  messages : List RawMsg
deriving DecidableEq

/-- One emitted training pair (the dict appended to `conversations`). -/
structure Conversation where
  context : List String
  response : String
  source_file : String
  chat_name : String
deriving DecidableEq

/-- `text.startswith('http')` and the other `startswith` checks, modelled
character by character. -/
def startsWithSeq : List Char → List Char → Bool
  | [], _ => true
  | _ :: _, [] => false
  | s :: ss, c :: cs => s == c && startsWithSeq ss cs

def startsWithStr (s pre : String) : Bool :=
  startsWithSeq pre.data s.data

/-- The APPEND transition of the context window (lines 52-57):
`current_context.append(text)` followed by
`if len(current_context) > 3: current_context.pop(0)`. -/
def pushCtx (ctx : List String) (t : String) : List String :=
  let c := ctx ++ [t]
  if c.length > 3 then c.tail else c

/-- The message loop of `process_chat_file` (lines 31-57): one forward
pass over the entries, threading the mutable `current_context`. -/
def processMessages (yn file chat : String) : List String → List RawMsg → List Conversation
  | _, [] => []
  | ctx, m :: rest =>
    match m.text with
    | none => processMessages yn file chat ctx rest
    | some tv =>
      if m.type ≠ some "message" then processMessages yn file chat ctx rest
      else
        let text := clean_text tv
        if text = "" ∨ text.length < 2 ∨ startsWithStr text "http" = true then
          processMessages yn file chat ctx rest
        else if senderOf m = yn then
          if ctx ≠ [] then
            { context := ctx, response := text,
              source_file := file, chat_name := chat } :: processMessages yn file chat [] rest
          else processMessages yn file chat ctx rest
        else
          processMessages yn file chat (pushCtx ctx text) rest

/-- Outcome of `json.load` on one chat file: a parsed document, or any
read/parse exception (the `except` branch of `process_chat_file`). -/
inductive FileRead where
  | ok : ChatData → FileRead
  | failure : FileRead
deriving DecidableEq

/-- `process_chat_file(file_path, your_name='Andrey')` (lines 18-63),
with the file already read: the `except` branch returns `[]`, a chat whose
`type` is not `'personal_chat'` returns `[]`, otherwise the message loop
runs with an initially empty context. -/
def process_chat_file (yn fileBase : String) (fr : FileRead) : List Conversation :=
  match fr with
  | .failure => []
  | .ok data =>
    if data.type ≠ some "personal_chat" then []
    else processMessages yn fileBase (data.name.getD "Unknown") [] data.messages

/-- The `except` branch prints a warning (`Ошибка при обработке ...`)
instead of re-raising; a successful parse prints none. -/
def process_chat_file_warns (fr : FileRead) : Bool :=
  match fr with
  | .failure => true
  | .ok _ => false

/-! ## The aggregator `create_training_dataset` -/

/-- The file loop of `create_training_dataset` (lines 80-88): each file is
processed independently and its pairs are appended to `all_conversations`
(the `if conversations:` guard skips only empty lists, which changes
nothing in the concatenation). -/
def aggregateConvs (yn : String) : List (String × FileRead) → List Conversation
  | [] => []
  | (name, fr) :: rest => process_chat_file yn name fr ++ aggregateConvs yn rest

/-- `processed_files`: files whose extraction produced at least one pair. -/
def countProcessed (yn : String) (files : List (String × FileRead)) : Nat :=
  (files.map (fun f => process_chat_file yn f.1 f.2)).countP (fun l => !l.isEmpty)

/-- The `stats` dict of `create_training_dataset` (lines 104-120);
`chat_sources` is the Python dict, modelled as its lookup function with
default `0`. -/
structure DatasetStats where
  total_conversations : Nat
  processed_files : Nat
  total_files : Nat
  chat_sources : String → Nat
  context_lengths : List Nat
  response_lengths : List Nat

/-- `stats['chat_sources'][source] = stats['chat_sources'].get(source, 0) + 1`. -/
def updateSources (m : String → Nat) (src : String) : String → Nat :=
  fun x => if x = src then m src + 1 else m x

/-- One iteration of the `for conv in all_conversations` statistics loop
(lines 113-120). -/
def statsStep (st : DatasetStats) (conv : Conversation) : DatasetStats :=
  { st with
    chat_sources := updateSources st.chat_sources conv.source_file,
    context_lengths := st.context_lengths ++ [conv.context.length],
    response_lengths := st.response_lengths ++ [conv.response.length] }

/-- The statistics object: initialised on lines 104-111, then folded over
the merged corpus. -/
def buildStats (processed total : Nat) (convs : List Conversation) : DatasetStats :=
  convs.foldl statsStep
    { total_conversations := convs.length
      processed_files := processed
      total_files := total
      chat_sources := fun _ => 0
      context_lengths := []
      response_lengths := [] }

/-! ## The generator: reply post-processing and fallback -/

/-- The self marker `"Вы: "` used by the prompt format and by the
post-processing split in `generate_response`. -/
def selfMarker : List Char := "Вы: ".data

/-- Occurrence test for a separator inside a string
(Python `sep in s`). -/
def occursIn (sep : List Char) : List Char → Bool
  | [] => startsWithSeq sep []
  | l@(_ :: cs) => startsWithSeq sep l || occursIn sep cs

/-- Python `s.split(sep)` for a non-empty separator, with explicit fuel
(one unit per consumed character) so that the definition is structural. -/
def splitGoF : Nat → List Char → List Char → List Char → List (List Char)
  | 0, _, l, cur => [cur ++ l]
  | _ + 1, _, [], cur => [cur]
  | fuel + 1, sep, c :: rest, cur =>
    if startsWithSeq sep (c :: rest) && !sep.isEmpty then
      cur :: splitGoF fuel sep ((c :: rest).drop sep.length) []
    else splitGoF fuel sep rest (cur ++ [c])

def splitOnList (sep l : List Char) : List (List Char) :=
  splitGoF (l.length + 1) sep l []

/-- `xs[-1]` on a non-empty list, with a default for the (unreachable)
empty case. -/
def lastD : List (List Char) → List Char → List Char
  | [], d => d
  | [x], _ => x
  | _ :: y :: rest, d => lastD (y :: rest) d

/-- Lines 95-104 of `generator.py`:
`full_response.split("Вы: ")[-1].strip()` when the marker occurs,
`full_response.strip()` otherwise. -/
def extractReplyL (full : List Char) : List Char :=
  if occursIn selfMarker full then stripWS (lastD (splitOnList selfMarker full) full)
  else stripWS full

def extractReply (s : String) : String :=
  String.mk (extractReplyL s.data)

/-- Outcome of the fallible part of the `try` block of
`generate_response` (tokenisation, `model.generate`, decoding): a decoded
string, or a raised exception with its message. -/
inductive GenOutcome where
  | ok : String → GenOutcome
  | err : String → GenOutcome
deriving DecidableEq

/-- The fixed fallback apology returned by the `except` branch. -/
def fallbackMsg : String := "Извините, не удалось сгенерировать ответ."

/-- `MessageGenerator.generate_response` (lines 47-108), with the external
inference call abstracted as `infer`: post-process a successful decode,
catch an exception and return the fallback string. -/
def generate_response (infer : List String → Float → GenOutcome)
    (ctx : List String) (temperature : Float) : String :=
  match infer ctx temperature with
  | .ok full => extractReply full
  | .err _ => fallbackMsg

/-- `MessageGenerator.generate_multiple_responses` (lines 110-120):
`num_responses` samples, each at temperature `temperature + i * 0.1`. -/
def generate_multiple_responses (infer : List String → Float → GenOutcome)
    (ctx : List String) (num_responses : Nat) (temperature : Float) : List String :=
  (List.range num_responses).map
    (fun i => generate_response infer ctx (temperature + i.toFloat * 0.1))

/-! ## Auxiliary predicates for the idempotence proof -/

/-- Binary constraint of a collapsed string: no two adjacent whitespace
characters. -/
def wsR (a b : Char) : Prop := isSpaceChar a = false ∨ isSpaceChar b = false

/-- Characterisation of strings already collapsed by `\s+` substitution:
every whitespace character is a plain space and no two adjacent
characters are both whitespace. -/
def okC (l : List Char) : Prop :=
  (∀ c ∈ l, isSpaceChar c = true → c = ' ') ∧ List.Chain' wsR l

/-- The first character, when present, is not whitespace. -/
def headNotSpace : List Char → Prop
  | [] => True
  | c :: _ => isSpaceChar c = false

/-! ## Helper lemmas -/

theorem pushCtx_len_le (w : List String) (t : String) (h : w.length ≤ 3) :
    (pushCtx w t).length ≤ 3 := by
  simp only [pushCtx]
  split_ifs with hgt <;> simp_all [List.length_tail]

theorem foldl_pushCtx_drop (ts : List String) : ∀ w : List String, w.length ≤ 3 →
    ts.foldl pushCtx w = (w ++ ts).drop (w.length + ts.length - 3) := by
  induction ts with
  | nil =>
    intro w h
    simp [Nat.sub_eq_zero_of_le, h]
  | cons t ts ih =>
    intro w h
    rw [List.foldl_cons, ih (pushCtx w t) (pushCtx_len_le w t h)]
    by_cases hgt : (w ++ [t]).length > 3
    · have hw3 : w.length = 3 := by
        simp only [List.length_append, List.length_cons, List.length_nil] at hgt
        omega
      obtain ⟨a, w2, rfl⟩ : ∃ a w2, w = a :: w2 := by
        cases w with
        | nil => simp at hw3
        | cons a w2 => exact ⟨a, w2, rfl⟩
      have hw2 : w2.length = 2 := by
        simp only [List.length_cons] at hw3
        omega
      have hpush : pushCtx (a :: w2) t = w2 ++ [t] := by
        unfold pushCtx
        rw [if_pos (by simpa using hgt)]
        simp
      rw [hpush]
      have e1 : (w2 ++ [t]).length + ts.length - 3 = ts.length := by
        simp [hw2]
      have e2 : (a :: w2).length + (t :: ts).length - 3 = ts.length + 1 := by
        simp only [List.length_cons, hw2, List.length_cons]
        omega
      rw [e1, e2]
      have e3 : (a :: w2) ++ t :: ts = a :: (w2 ++ t :: ts) := by simp
      rw [e3, List.drop_succ_cons]
      congr 1
      simp
    · have hpush : pushCtx w t = w ++ [t] := by
        unfold pushCtx
        rw [if_neg hgt]
      rw [hpush]
      have e1 : (w ++ [t]) ++ ts = w ++ t :: ts := by simp
      have e2 : (w ++ [t]).length + ts.length = w.length + (t :: ts).length := by
        simp only [List.length_append, List.length_cons, List.length_nil]
        omega
      rw [e1, e2]

/-! ## Claims about the context window and extractor -/

/-- C2: starting from the empty window, any sequence of APPEND operations
(`pushCtx`) with no intervening flush leaves at most 3 elements, namely
exactly the most recently appended ones in their original order (the
length-3 final segment of the appended sequence). -/
theorem window_capacity_fifo (ts : List String) :
    (ts.foldl pushCtx []).length ≤ 3 ∧
    ts.foldl pushCtx [] = ts.drop (ts.length - 3) := by
  have h := foldl_pushCtx_drop ts [] (by simp)
  simp only [List.nil_append, List.length_nil, Nat.zero_add] at h
  refine ⟨?_, h⟩
  rw [h]
  simp only [List.length_drop]
  omega

/-- C1: a surviving outgoing entry (kind `message`, text present, cleaned
text passing the filter, sender equal to the owner identity) emits a pair
snapshotting the window and clears it exactly when the window is
non-empty; with an empty window it is a no-op. -/
theorem outgoing_flush_iff_nonempty
    (yn file chat : String) (ctx : List String) (m : RawMsg) (rest : List RawMsg)
    (tv : TextVal) (htext : m.text = some tv) (htype : m.type = some "message")
    (hfilter : ¬(clean_text tv = "" ∨ (clean_text tv).length < 2 ∨
      startsWithStr (clean_text tv) "http" = true))
    (hsender : senderOf m = yn) :
    (ctx ≠ [] →
      processMessages yn file chat ctx (m :: rest) =
        { context := ctx, response := clean_text tv,
          source_file := file, chat_name := chat }
          :: processMessages yn file chat [] rest) ∧
    (ctx = [] →
      processMessages yn file chat ctx (m :: rest) =
        processMessages yn file chat ctx rest) := by
  constructor <;> intro hctx <;>
    simp [processMessages, htext, htype, hfilter, hsender, hctx]

theorem outgoing_flush_iff_nonempty_witness :
    processMessages "Andrey" "f.json" "c" ["hi there"]
        [⟨some "message", some "Andrey", some (.plain "good thanks")⟩] =
      [{ context := ["hi there"], response := "good thanks",
         source_file := "f.json", chat_name := "c" }] := by
  have h := (outgoing_flush_iff_nonempty "Andrey" "f.json" "c" ["hi there"]
    ⟨some "message", some "Andrey", some (.plain "good thanks")⟩ []
    (.plain "good thanks") rfl rfl (by decide) rfl).1 (by decide)
  rw [h]
  rfl

/-- C10: an entry with no `from` field (or with the empty string as
sender) defaults to sender `''`, which differs from any non-empty owner
identity, so a surviving such entry is appended to the window like any
interlocutor message and is never treated as outgoing. -/
theorem defaulted_sender_is_interlocutor
    (yn file chat : String) (ctx : List String) (m : RawMsg) (rest : List RawMsg)
    (tv : TextVal) (hfrom : m.fromField = none ∨ m.fromField = some "")
    (hyn : yn ≠ "") (htext : m.text = some tv) (htype : m.type = some "message")
    (hfilter : ¬(clean_text tv = "" ∨ (clean_text tv).length < 2 ∨
      startsWithStr (clean_text tv) "http" = true)) :
    senderOf m ≠ yn ∧
    processMessages yn file chat ctx (m :: rest) =
      processMessages yn file chat (pushCtx ctx (clean_text tv)) rest := by
  have hs : senderOf m = "" := by
    rcases hfrom with h | h <;> simp [senderOf, h]
  have hne : senderOf m ≠ yn := by
    rw [hs]
    exact fun he => hyn he.symm
  refine ⟨hne, ?_⟩
  simp [processMessages, htext, htype, hfilter, hne]

theorem defaulted_sender_is_interlocutor_witness :
    senderOf ⟨some "message", none, some (.plain "hi there")⟩ ≠ "Andrey" ∧
    processMessages "Andrey" "f.json" "c" []
        [⟨some "message", none, some (.plain "hi there")⟩] =
      processMessages "Andrey" "f.json" "c" (pushCtx [] "hi there") [] := by
  have h := defaulted_sender_is_interlocutor "Andrey" "f.json" "c" []
    ⟨some "message", none, some (.plain "hi there")⟩ [] (.plain "hi there")
    (Or.inl rfl) (by decide) rfl rfl (by decide)
  exact h

/-- C4: a chat whose top-level `type` is not `'personal_chat'` yields no
pairs whatever its messages; an unreadable or malformed file yields no
pairs and a warning instead of an exception, and the aggregation over a
directory is unaffected by such a file. -/
theorem nonpersonal_and_failure_policy :
    (∀ (yn file : String) (d : ChatData), d.type ≠ some "personal_chat" →
        process_chat_file yn file (.ok d) = []) ∧
    (∀ yn file : String, process_chat_file yn file .failure = [] ∧
        process_chat_file_warns .failure = true) ∧
    (∀ (yn : String) (pre post : List (String × FileRead)) (file : String),
        aggregateConvs yn (pre ++ (file, .failure) :: post) =
          aggregateConvs yn pre ++ aggregateConvs yn post) := by
  refine ⟨?_, ?_, ?_⟩
  · intro yn file d hd
    simp [process_chat_file, hd]
  · intro yn file
    exact ⟨rfl, rfl⟩
  · intro yn pre post file
    induction pre with
    | nil => simp [aggregateConvs, process_chat_file]
    | cons f fs ih =>
      obtain ⟨name, fr⟩ := f
      simp [aggregateConvs, ih, List.append_assoc]

theorem nonpersonal_and_failure_policy_witness :
    process_chat_file "Andrey" "f.json"
        (.ok ⟨some "saved_messages", some "X",
          [⟨some "message", some "Andrey", some (.plain "good thanks")⟩]⟩) = [] :=
  nonpersonal_and_failure_policy.1 "Andrey" "f.json" _ (by decide)

theorem joinStrs_append (a b : List String) :
    joinStrs (a ++ b) = joinStrs a ++ joinStrs b := by
  induction a with
  | nil => simp [joinStrs, String.empty_append]
  | cons s rest ih => simp [joinStrs, ih, String.append_assoc]

/-- C5: the normalizer is total on both input shapes and concatenates a
fragment list in original order with no separator; a dict-like fragment
contributes its `text` field, a scalar fragment its own string value, and
a plain string goes straight into the string pipeline. -/
theorem clean_text_total_concat (fs gs : List Fragment) (t s : String) :
    textValToString (.frags (fs ++ gs)) =
      textValToString (.frags fs) ++ textValToString (.frags gs) ∧
    textValToString (.frags [Fragment.dict t]) = t ∧
    textValToString (.frags [Fragment.str s]) = s ∧
    clean_text (.plain s) = cleanString s ∧
    clean_text (.frags fs) = cleanString (textValToString (.frags fs)) := by
  refine ⟨?_, ?_, ?_, rfl, rfl⟩
  · simp [textValToString, joinStrs_append]
  · simp [textValToString, fragToString, joinStrs, String.append_empty]
  · simp [textValToString, fragToString, joinStrs, String.append_empty]

/-- C9: a raised inference exception during one reply is converted into
the fixed fallback apology string instead of propagating, and a
multi-candidate request always returns exactly the requested number of
strings, with each failed sample replaced by the fallback string. -/
theorem generation_failure_fallback (infer : List String → Float → GenOutcome)
    (ctx : List String) (n : Nat) (t : Float) :
    (generate_multiple_responses infer ctx n t).length = n ∧
    (∀ (t2 : Float) (e : String), infer ctx t2 = .err e →
        generate_response infer ctx t2 = fallbackMsg) ∧
    (∀ i : Nat, i < n → ∀ e : String, infer ctx (t + i.toFloat * 0.1) = .err e →
        (generate_multiple_responses infer ctx n t)[i]? = some fallbackMsg) := by
  refine ⟨by simp [generate_multiple_responses], ?_, ?_⟩
  · intro t2 e he
    simp [generate_response, he]
  · intro i hi e he
    simp only [generate_multiple_responses, List.getElem?_map,
      List.getElem?_range hi, Option.map_some']
    simp [generate_response, he]

theorem generation_failure_fallback_witness :
    (generate_multiple_responses (fun _ _ => .err "boom") [] 3 0.7).length = 3 ∧
    (generate_multiple_responses (fun _ _ => .err "boom") [] 3 0.7)[1]? =
      some fallbackMsg := by
  have h := generation_failure_fallback (fun _ _ => .err "boom") [] 3 0.7
  exact ⟨h.1, h.2.2 1 (by decide) "boom" rfl⟩

theorem mem_pushCtx {ctx : List String} {x t : String} (h : x ∈ pushCtx ctx t) :
    x ∈ ctx ∨ x = t := by
  simp only [pushCtx] at h
  split_ifs at h with hgt
  · have h2 := List.mem_of_mem_tail h
    simpa using h2
  · simpa using h

theorem processMessages_filter_inv
    (yn file chat : String) (msgs : List RawMsg) :
    ∀ ctx : List String,
      (∀ t ∈ ctx, 2 ≤ t.length ∧ startsWithStr t "http" = false) →
      ∀ conv ∈ processMessages yn file chat ctx msgs,
        ((2 ≤ conv.response.length ∧ startsWithStr conv.response "http" = false) ∧
          ∀ t ∈ conv.context, 2 ≤ t.length ∧ startsWithStr t "http" = false) := by
  induction msgs with
  | nil =>
    intro ctx _ conv h
    simp [processMessages] at h
  | cons m rest ih =>
    intro ctx hctx conv hmem
    obtain ⟨mt, mf, mtx⟩ := m
    cases mtx with
    | none => exact ih ctx hctx conv hmem
    | some tv =>
      simp only [processMessages] at hmem
      split_ifs at hmem with h1 h2 h3 h4
      · exact ih ctx hctx conv hmem
      · exact ih ctx hctx conv hmem
      · rw [List.mem_cons] at hmem
        rcases hmem with hmem | hmem
        · subst hmem
          push_neg at h2
          dsimp only
          refine ⟨⟨by omega, ?_⟩, hctx⟩
          cases hsw : startsWithStr (clean_text tv) "http" with
          | false => rfl
          | true => exact absurd hsw h2.2.2
        · exact ih [] (by simp) conv hmem
      · exact ih ctx hctx conv hmem
      · refine ih (pushCtx ctx (clean_text tv)) ?_ conv hmem
        intro t ht
        rcases mem_pushCtx ht with h | h
        · exact hctx t h
        · subst h
          push_neg at h2
          refine ⟨by omega, ?_⟩
          cases hsw : startsWithStr (clean_text tv) "http" with
          | false => rfl
          | true => exact absurd hsw h2.2.2

/-- C3: an entry whose cleaned text is shorter than 2 characters or
begins with `http` is discarded: it never appears as the response of any
emitted pair and never enters any emitted context window (stated
contrapositively: every response and every context element of an emitted
pair has cleaned length at least 2 and does not begin with `http`). -/
theorem filtered_text_never_used
    (yn file chat : String) (msgs : List RawMsg) (conv : Conversation)
    (hmem : conv ∈ processMessages yn file chat [] msgs) :
    (2 ≤ conv.response.length ∧ startsWithStr conv.response "http" = false) ∧
    ∀ t ∈ conv.context, 2 ≤ t.length ∧ startsWithStr t "http" = false :=
  processMessages_filter_inv yn file chat msgs [] (by simp) conv hmem

theorem filtered_text_never_used_witness :
    (⟨["hi there"], "good thanks", "f.json", "c"⟩ : Conversation) ∈
      processMessages "Andrey" "f.json" "c" []
        [⟨some "message", some "Vasya", some (.plain "x")⟩,
         ⟨some "message", some "Vasya", some (.plain "http://spam.example")⟩,
         ⟨some "message", some "Vasya", some (.plain "hi there")⟩,
         ⟨some "message", some "Andrey", some (.plain "good thanks")⟩] ∧
    2 ≤ ("good thanks" : String).length ∧
      startsWithStr "good thanks" "http" = false := by
  have hmem : (⟨["hi there"], "good thanks", "f.json", "c"⟩ : Conversation) ∈
      processMessages "Andrey" "f.json" "c" []
        [⟨some "message", some "Vasya", some (.plain "x")⟩,
         ⟨some "message", some "Vasya", some (.plain "http://spam.example")⟩,
         ⟨some "message", some "Vasya", some (.plain "hi there")⟩,
         ⟨some "message", some "Andrey", some (.plain "good thanks")⟩] := by
    decide
  have h := filtered_text_never_used "Andrey" "f.json" "c" _ _ hmem
  exact ⟨hmem, h.1⟩

theorem processMessages_ctx_le
    (yn file chat : String) (msgs : List RawMsg) :
    ∀ ctx : List String, ctx.length ≤ 3 →
      ∀ conv ∈ processMessages yn file chat ctx msgs, conv.context.length ≤ 3 := by
  induction msgs with
  | nil =>
    intro ctx _ conv h
    simp [processMessages] at h
  | cons m rest ih =>
    intro ctx hctx conv hmem
    obtain ⟨mt, mf, mtx⟩ := m
    cases mtx with
    | none => exact ih ctx hctx conv hmem
    | some tv =>
      simp only [processMessages] at hmem
      split_ifs at hmem with h1 h2 h3 h4
      · exact ih ctx hctx conv hmem
      · exact ih ctx hctx conv hmem
      · rw [List.mem_cons] at hmem
        rcases hmem with hmem | hmem
        · subst hmem
          exact hctx
        · exact ih [] (by simp) conv hmem
      · exact ih ctx hctx conv hmem
      · exact ih (pushCtx ctx (clean_text tv))
          (pushCtx_len_le ctx (clean_text tv) hctx) conv hmem

theorem aggregateConvs_ctx_le (yn : String) (files : List (String × FileRead)) :
    ∀ conv ∈ aggregateConvs yn files, conv.context.length ≤ 3 := by
  induction files with
  | nil =>
    intro conv h
    simp [aggregateConvs] at h
  | cons f fs ih =>
    intro conv hmem
    obtain ⟨name, fr⟩ := f
    simp only [aggregateConvs, List.mem_append] at hmem
    rcases hmem with hmem | hmem
    · cases fr with
      | failure => simp [process_chat_file] at hmem
      | ok data =>
        simp only [process_chat_file] at hmem
        split_ifs at hmem with h1
        · simp at hmem
        · exact processMessages_ctx_le yn name (data.name.getD "Unknown")
            data.messages [] (by simp) conv hmem
    · exact ih conv hmem

theorem foldl_statsStep_total (convs : List Conversation) :
    ∀ acc : DatasetStats,
      (convs.foldl statsStep acc).total_conversations = acc.total_conversations := by
  induction convs with
  | nil => intro acc; rfl
  | cons c rest ih => intro acc; rw [List.foldl_cons, ih]; rfl

theorem foldl_statsStep_ctx (convs : List Conversation) :
    ∀ acc : DatasetStats,
      (convs.foldl statsStep acc).context_lengths =
        acc.context_lengths ++ convs.map (fun c => c.context.length) := by
  induction convs with
  | nil => intro acc; simp
  | cons c rest ih =>
    intro acc
    rw [List.foldl_cons, ih]
    simp [statsStep]

theorem foldl_statsStep_resp (convs : List Conversation) :
    ∀ acc : DatasetStats,
      (convs.foldl statsStep acc).response_lengths =
        acc.response_lengths ++ convs.map (fun c => c.response.length) := by
  induction convs with
  | nil => intro acc; simp
  | cons c rest ih =>
    intro acc
    rw [List.foldl_cons, ih]
    simp [statsStep]

theorem foldl_statsStep_sources (convs : List Conversation) :
    ∀ (acc : DatasetStats) (s : String),
      (convs.foldl statsStep acc).chat_sources s =
        acc.chat_sources s + convs.countP (fun c => c.source_file == s) := by
  induction convs with
  | nil => intro acc s; simp
  | cons c rest ih =>
    intro acc s
    rw [List.foldl_cons, ih, List.countP_cons]
    by_cases hs : s = c.source_file
    · subst hs
      simp [statsStep, updateSources]
      omega
    · have hbeq : (c.source_file == s) = false := by
        rw [beq_eq_false_iff_ne]
        exact fun h => hs h.symm
      simp [statsStep, updateSources, hs, hbeq]

/-- C8: the statistics are a pure fold over the merged corpus:
`total_conversations` is the number of pairs, `chat_sources` maps each
source filename to the number of pairs carrying it, and
`context_lengths` / `response_lengths` list, in corpus order, the context
sizes (each at most 3) and response character lengths of all pairs. -/
theorem statistics_pure_fold (yn : String) (files : List (String × FileRead))
    (p tot : Nat) :
    (buildStats p tot (aggregateConvs yn files)).total_conversations =
      (aggregateConvs yn files).length ∧
    (∀ s : String, (buildStats p tot (aggregateConvs yn files)).chat_sources s =
      (aggregateConvs yn files).countP (fun c => c.source_file == s)) ∧
    (buildStats p tot (aggregateConvs yn files)).context_lengths =
      (aggregateConvs yn files).map (fun c => c.context.length) ∧
    (buildStats p tot (aggregateConvs yn files)).response_lengths =
      (aggregateConvs yn files).map (fun c => c.response.length) ∧
    ∀ n ∈ (buildStats p tot (aggregateConvs yn files)).context_lengths, n ≤ 3 := by
  refine ⟨?_, ?_, ?_, ?_, ?_⟩
  · rw [buildStats, foldl_statsStep_total]
  · intro s
    rw [buildStats, foldl_statsStep_sources]
    simp
  · rw [buildStats, foldl_statsStep_ctx]
    simp
  · rw [buildStats, foldl_statsStep_resp]
    simp
  · intro n hn
    rw [buildStats, foldl_statsStep_ctx] at hn
    simp only [List.nil_append, List.mem_map] at hn
    obtain ⟨conv, hconv, rfl⟩ := hn
    exact aggregateConvs_ctx_le yn files conv hconv

theorem statistics_pure_fold_witness :
    1 ∈ (buildStats 1 1 (aggregateConvs "Andrey"
      [("f.json", .ok ⟨some "personal_chat", some "c",
        [⟨some "message", some "Vasya", some (.plain "hi there")⟩,
         ⟨some "message", some "Andrey", some (.plain "good thanks")⟩]⟩)])).context_lengths ∧
    (1 : Nat) ≤ 3 :=
  ⟨by decide,
    (statistics_pure_fold "Andrey"
      [("f.json", .ok ⟨some "personal_chat", some "c",
        [⟨some "message", some "Vasya", some (.plain "hi there")⟩,
         ⟨some "message", some "Andrey", some (.plain "good thanks")⟩]⟩)] 1 1).2.2.2.2
      1 (by decide)⟩

/-! ## Idempotence of the normalizer -/

theorem okC_nil : okC [] := ⟨by simp, List.chain'_nil⟩

theorem okC_tail {c : Char} {l : List Char} (h : okC (c :: l)) : okC l :=
  ⟨fun x hx hsp => h.1 x (List.mem_cons_of_mem c hx) hsp, h.2.tail⟩

theorem okC_dropWhile {l : List Char} (p : Char → Bool) (h : okC l) :
    okC (l.dropWhile p) := by
  induction l with
  | nil => simpa using h
  | cons c cs ih =>
    rw [List.dropWhile_cons]
    split_ifs with hc
    · exact ih (okC_tail h)
    · exact h

theorem okC_reverse {l : List Char} (h : okC l) : okC l.reverse := by
  refine ⟨fun c hc hsp => h.1 c (List.mem_reverse.mp hc) hsp, ?_⟩
  rw [List.chain'_reverse]
  exact h.2.imp (fun a b hab => hab.symm)

theorem okC_stripWS {l : List Char} (h : okC l) : okC (stripWS l) :=
  okC_reverse (okC_dropWhile _ (okC_reverse (okC_dropWhile _ h)))

theorem okC_collapseAux (l : List Char) :
    ∀ b : Bool, okC (collapseAux b l) ∧
      (b = true → headNotSpace (collapseAux b l)) := by
  induction l with
  | nil =>
    intro b
    exact ⟨okC_nil, fun _ => trivial⟩
  | cons c cs ih =>
    intro b
    by_cases hc : isSpaceChar c = true
    · cases b
      · have heq : collapseAux false (c :: cs) = ' ' :: collapseAux true cs := by
          simp [collapseAux, hc]
        rw [heq]
        refine ⟨⟨?_, ?_⟩, fun hb => by simp at hb⟩
        · intro x hx hsp
          rcases List.mem_cons.mp hx with rfl | hx
          · rfl
          · exact (ih true).1.1 x hx hsp
        · rw [List.chain'_cons']
          refine ⟨?_, (ih true).1.2⟩
          intro y hy
          right
          have hhd := (ih true).2 rfl
          cases hcol : collapseAux true cs with
          | nil => rw [hcol] at hy; simp at hy
          | cons d ds =>
            rw [hcol] at hy hhd
            simp only [List.head?_cons, Option.mem_def, Option.some.injEq] at hy
            subst hy
            exact hhd
      · have heq : collapseAux true (c :: cs) = collapseAux true cs := by
          simp [collapseAux, hc]
        rw [heq]
        exact ⟨(ih true).1, fun _ => (ih true).2 rfl⟩
    · have hcf : isSpaceChar c = false := by
        cases hcc : isSpaceChar c with
        | false => rfl
        | true => exact absurd hcc hc
      have heq : ∀ b2 : Bool, collapseAux b2 (c :: cs) = c :: collapseAux false cs := by
        intro b2
        simp [collapseAux, hc]
      rw [heq b]
      refine ⟨⟨?_, ?_⟩, fun _ => hcf⟩
      · intro x hx hsp
        rcases List.mem_cons.mp hx with rfl | hx
        · exact absurd hsp hc
        · exact (ih false).1.1 x hx hsp
      · rw [List.chain'_cons']
        exact ⟨fun y _ => Or.inl hcf, (ih false).1.2⟩

theorem collapseAux_eq_self {l : List Char} (h : okC l) :
    ∀ b : Bool, (b = true → headNotSpace l) → collapseAux b l = l := by
  induction l with
  | nil => intro b _; rfl
  | cons c cs ih =>
    intro b hb
    by_cases hc : isSpaceChar c = true
    · have hc2 : c = ' ' := h.1 c (List.mem_cons_self c cs) hc
      cases b
      · have hcs : headNotSpace cs := by
          cases cs with
          | nil => trivial
          | cons d ds =>
            rcases (List.chain'_cons.mp h.2).1 with hx | hx
            · rw [hx] at hc; cases hc
            · exact hx
        have hrec : collapseAux true cs = cs :=
          ih (okC_tail h) true (fun _ => hcs)
        have heq : collapseAux false (c :: cs) = ' ' :: collapseAux true cs := by
          simp [collapseAux, hc]
        rw [heq, hrec, hc2]
      · have := hb rfl
        rw [show headNotSpace (c :: cs) = (isSpaceChar c = false) from rfl] at this
        rw [this] at hc
        cases hc
    · have hrec : collapseAux false cs = cs :=
        ih (okC_tail h) false (fun hf => by cases hf)
      cases b <;> simp [collapseAux, hc, hrec]

theorem mem_of_mem_dropWhile {c : Char} {p : Char → Bool} :
    ∀ {l : List Char}, c ∈ l.dropWhile p → c ∈ l := by
  intro l h
  induction l with
  | nil => simp at h
  | cons d ds ih =>
    rw [List.dropWhile_cons] at h
    split_ifs at h with hd
    · exact List.mem_cons_of_mem d (ih h)
    · exact h

theorem mem_stripWS {c : Char} {l : List Char} (h : c ∈ stripWS l) : c ∈ l := by
  unfold stripWS List.rdropWhile at h
  rw [List.mem_reverse] at h
  have h2 := mem_of_mem_dropWhile h
  rw [List.mem_reverse] at h2
  exact mem_of_mem_dropWhile h2

theorem mem_collapseAux {c : Char} :
    ∀ (l : List Char) (b : Bool), c ∈ collapseAux b l → c = ' ' ∨ c ∈ l := by
  intro l
  induction l with
  | nil =>
    intro b h
    simp [collapseAux] at h
  | cons d ds ih =>
    intro b h
    by_cases hd : isSpaceChar d = true
    · cases b
      · rw [show collapseAux false (d :: ds) = ' ' :: collapseAux true ds by
          simp [collapseAux, hd]] at h
        rcases List.mem_cons.mp h with rfl | h
        · exact Or.inl rfl
        · rcases ih true h with h | h
          · exact Or.inl h
          · exact Or.inr (List.mem_cons_of_mem d h)
      · rw [show collapseAux true (d :: ds) = collapseAux true ds by
          simp [collapseAux, hd]] at h
        rcases ih true h with h | h
        · exact Or.inl h
        · exact Or.inr (List.mem_cons_of_mem d h)
    · rw [show collapseAux b (d :: ds) = d :: collapseAux false ds by
        simp [collapseAux, hd]] at h
      rcases List.mem_cons.mp h with rfl | h
      · exact Or.inr (List.mem_cons_self c ds)
      · rcases ih false h with h | h
        · exact Or.inl h
        · exact Or.inr (List.mem_cons_of_mem d h)

theorem allowedChar_of_mem_cleanChars {c : Char} {l : List Char}
    (h : c ∈ cleanChars l) : allowedChar c = true := by
  unfold cleanChars at h
  have h1 := mem_stripWS h
  rcases mem_collapseAux _ false h1 with rfl | h2
  · decide
  · unfold subDisallowed at h2
    rw [List.mem_map] at h2
    obtain ⟨a, _, ha⟩ := h2
    split_ifs at ha with haa
    · rw [← ha]
      exact haa
    · rw [← ha]
      decide

theorem subDisallowed_eq_self :
    ∀ l : List Char, (∀ c ∈ l, allowedChar c = true) → subDisallowed l = l := by
  intro l
  induction l with
  | nil => intro _; rfl
  | cons c cs ih =>
    intro h
    have hc := h c (List.mem_cons_self c cs)
    have hcs := ih (fun x hx => h x (List.mem_cons_of_mem c hx))
    simp only [subDisallowed, List.map_cons, hc, if_true]
    simp only [subDisallowed] at hcs
    rw [hcs]

theorem dropWhile_stripWS (l : List Char) :
    List.dropWhile isSpaceChar (stripWS l) = stripWS l := by
  cases hX : stripWS l with
  | nil => rfl
  | cons c X2 =>
    have hne : List.dropWhile isSpaceChar l ≠ [] := by
      intro h0
      have h1 : stripWS l = [] := by
        unfold stripWS
        rw [h0]
        rfl
      rw [hX] at h1
      cases h1
    have hhead := List.head_dropWhile_not isSpaceChar l hne
    obtain ⟨t, ht⟩ := List.rdropWhile_prefix isSpaceChar (List.dropWhile isSpaceChar l)
    unfold stripWS at hX
    rw [hX] at ht
    have hh2 : (List.dropWhile isSpaceChar l).head? = some c := by
      rw [← ht]
      rfl
    have hc : (List.dropWhile isSpaceChar l).head hne = c := by
      rw [List.head?_eq_head hne] at hh2
      exact Option.some.inj hh2
    rw [hc] at hhead
    rw [List.dropWhile_cons, if_neg]
    rw [hhead]
    exact Bool.false_ne_true

theorem stripWS_idem (l : List Char) : stripWS (stripWS l) = stripWS l := by
  show List.rdropWhile isSpaceChar (List.dropWhile isSpaceChar (stripWS l)) = stripWS l
  rw [dropWhile_stripWS]
  show List.rdropWhile isSpaceChar
    (List.rdropWhile isSpaceChar (List.dropWhile isSpaceChar l)) = _
  exact List.rdropWhile_idempotent _ _

theorem cleanChars_idem (l : List Char) :
    cleanChars (cleanChars l) = cleanChars l := by
  have hok : okC (collapseWS (subDisallowed l)) :=
    (okC_collapseAux (subDisallowed l) false).1
  have hokY : okC (cleanChars l) := okC_stripWS hok
  have hsub : subDisallowed (cleanChars l) = cleanChars l :=
    subDisallowed_eq_self _ (fun c hc => allowedChar_of_mem_cleanChars hc)
  have hcol : collapseWS (cleanChars l) = cleanChars l :=
    collapseAux_eq_self hokY false (fun hf => by cases hf)
  show stripWS (collapseWS (subDisallowed (cleanChars l))) = cleanChars l
  rw [hsub, hcol]
  exact stripWS_idem _

/-- C6: the normalizer is idempotent: running the cleaning pipeline on an
already cleaned string changes nothing, both for the result of
`clean_text` on any input value and for `cleanString` on any string. -/
theorem clean_text_idempotent (v : TextVal) (s : String) :
    cleanString (clean_text v) = clean_text v ∧
    cleanString (cleanString s) = cleanString s := by
  constructor
  · show cleanString (cleanString (textValToString v)) = cleanString (textValToString v)
    unfold cleanString
    rw [show (String.mk (cleanChars (textValToString v).data)).data =
      cleanChars (textValToString v).data from rfl, cleanChars_idem]
  · unfold cleanString
    rw [show (String.mk (cleanChars s.data)).data = cleanChars s.data from rfl,
      cleanChars_idem]

/-! ## Reply post-processing: split on the last self marker -/

theorem startsWithSeq_append (s l : List Char) : startsWithSeq s (s ++ l) = true := by
  induction s with
  | nil => rfl
  | cons c cs ih => simp [startsWithSeq, ih]

theorem occursIn_of_append (sep a b : List Char) :
    occursIn sep (a ++ sep ++ b) = true := by
  induction a with
  | nil =>
    simp only [List.nil_append]
    cases sep with
    | nil =>
      cases b with
      | nil => rfl
      | cons c cs => simp [occursIn, startsWithSeq]
    | cons s ss =>
      have h1 := startsWithSeq_append (s :: ss) b
      rw [List.cons_append] at h1
      rw [List.cons_append, occursIn, h1, Bool.true_or]
  | cons x a2 ih =>
    have hstep : (x :: a2) ++ sep ++ b = x :: (a2 ++ sep ++ b) := by simp
    rw [hstep, occursIn, ih, Bool.or_true]

theorem splitGoF_no_occ (sep : List Char) :
    ∀ (fuel : Nat) (l cur : List Char), occursIn sep l = false →
      l.length < fuel → splitGoF fuel sep l cur = [cur ++ l] := by
  intro fuel
  induction fuel with
  | zero =>
    intro l cur _ h
    exact absurd h (Nat.not_lt_zero _)
  | succ f ih =>
    intro l cur hocc hlen
    cases l with
    | nil => simp [splitGoF]
    | cons c rest =>
      rw [occursIn, Bool.or_eq_false_iff] at hocc
      rw [splitGoF, if_neg (by rw [hocc.1]; simp)]
      rw [ih rest (cur ++ [c]) hocc.2 (by simp at hlen; omega)]
      simp

theorem splitGoF_ne_nil :
    ∀ (fuel : Nat) (sep l cur : List Char), splitGoF fuel sep l cur ≠ [] := by
  intro fuel
  induction fuel with
  | zero => intro sep l cur; simp [splitGoF]
  | succ f ih =>
    intro sep l cur
    cases l with
    | nil => simp [splitGoF]
    | cons c rest =>
      rw [splitGoF]
      split_ifs with hg
      · simp
      · exact ih sep rest (cur ++ [c])

theorem splitGoF_marker_last :
    ∀ (fuel : Nat) (a b cur d : List Char), occursIn selfMarker b = false →
      (a ++ selfMarker ++ b).length < fuel →
      lastD (splitGoF fuel selfMarker (a ++ selfMarker ++ b) cur) d = b := by
  intro fuel
  induction fuel with
  | zero =>
    intro a b cur d _ h
    exact absurd h (Nat.not_lt_zero _)
  | succ f ih =>
    intro a b cur d hocc hlen
    cases a with
    | nil =>
      have hcons : ([] : List Char) ++ selfMarker ++ b =
          'В' :: ('ы' :: ':' :: ' ' :: b) := rfl
      have hsw : startsWithSeq selfMarker ('В' :: ('ы' :: ':' :: ' ' :: b)) = true :=
        startsWithSeq_append selfMarker b
      have hlen2 : ('В' :: ('ы' :: ':' :: ' ' :: b)).length < f + 1 := hlen
      rw [hcons]
      rw [splitGoF, if_pos (by rw [hsw]; rfl)]
      have hdrop : ('В' :: ('ы' :: ':' :: ' ' :: b)).drop selfMarker.length = b := rfl
      rw [hdrop]
      have hb : splitGoF f selfMarker b [] = [b] := by
        have hlb : b.length < f := by
          simp only [List.length_cons] at hlen2
          omega
        rw [splitGoF_no_occ selfMarker f b [] hocc hlb]
        simp
      rw [hb]
      rfl
    | cons x a2 =>
      have hstep : (x :: a2) ++ selfMarker ++ b = x :: (a2 ++ selfMarker ++ b) := by
        simp
      rw [hstep]
      rw [hstep] at hlen
      cases hsw : startsWithSeq selfMarker (x :: (a2 ++ selfMarker ++ b)) with
      | false =>
        rw [splitGoF, if_neg (by rw [hsw]; simp)]
        refine ih a2 b (cur ++ [x]) d hocc ?_
        simp only [List.length_cons] at hlen
        omega
      | true =>
        cases a2 with
        | nil =>
          exfalso
          simp [selfMarker, startsWithSeq] at hsw
        | cons y a3 =>
          cases a3 with
          | nil =>
            exfalso
            simp [selfMarker, startsWithSeq] at hsw
          | cons z a4 =>
            cases a4 with
            | nil =>
              exfalso
              simp [selfMarker, startsWithSeq] at hsw
            | cons u a5 =>
              rw [splitGoF, if_pos (by rw [hsw]; rfl)]
              have hshape : x :: ((y :: z :: u :: a5) ++ selfMarker ++ b) =
                  x :: y :: z :: u :: (a5 ++ selfMarker ++ b) := by
                simp
              rw [hshape]
              have hdrop : (x :: y :: z :: u :: (a5 ++ selfMarker ++ b)).drop
                  selfMarker.length = a5 ++ selfMarker ++ b := rfl
              rw [hdrop]
              obtain ⟨y0, ys, hX⟩ :=
                List.exists_cons_of_ne_nil
                  (splitGoF_ne_nil f selfMarker (a5 ++ selfMarker ++ b) [])
              rw [hX]
              rw [show lastD (cur :: y0 :: ys) d = lastD (y0 :: ys) d from rfl]
              rw [← hX]
              refine ih a5 b [] d hocc ?_
              rw [hshape] at hlen
              simp only [List.length_cons] at hlen
              simp only [List.length_append]
              simp only [List.length_append] at hlen
              omega

/-- C7: the reply post-processor returns the stripped suffix after the
last occurrence of the self marker `"Вы: "` when the marker occurs
(decomposition `a ++ marker ++ b` with no occurrence in `b`), and the
stripped input unchanged when the marker does not occur; it is total. -/
theorem extract_reply_after_last_marker (a b l : List Char) :
    (occursIn selfMarker b = false →
      extractReplyL (a ++ selfMarker ++ b) = stripWS b ∧
      extractReply (String.mk (a ++ selfMarker ++ b)) = String.mk (stripWS b)) ∧
    (occursIn selfMarker l = false → extractReplyL l = stripWS l) := by
  constructor
  · intro hocc
    have h1 : extractReplyL (a ++ selfMarker ++ b) = stripWS b := by
      unfold extractReplyL
      rw [if_pos (occursIn_of_append selfMarker a b)]
      unfold splitOnList
      rw [splitGoF_marker_last _ a b [] _ hocc (Nat.lt_succ_self _)]
    refine ⟨h1, ?_⟩
    unfold extractReply
    rw [show (String.mk (a ++ selfMarker ++ b)).data = a ++ selfMarker ++ b from rfl,
      h1]
  · intro hocc
    unfold extractReplyL
    rw [if_neg]
    rw [hocc]
    exact Bool.false_ne_true

theorem extract_reply_after_last_marker_witness :
    occursIn selfMarker "hello".data = false ∧
    extractReplyL ("A: hi\n".data ++ selfMarker ++ "hello".data) =
      stripWS "hello".data ∧
    extractReplyL "no marker ".data = stripWS "no marker ".data := by
  have h := extract_reply_after_last_marker "A: hi\n".data "hello".data
    "no marker ".data
  exact ⟨by decide, (h.1 (by decide)).1, h.2 (by decide)⟩
